import Mathlib

/-!
Verification of the process-supervision and time-series synchronization
subsystem of the New-flow repository.

The Python source is shallowly embedded: timestamps are absolute times in
seconds (integers, as produced by `_parse_ts`; an unparsable or absent
timestamp is `none`), Python dictionaries holding one metric point become
records whose metric fields keep the `isinstance(value, int)` filter as
`Option Int`, and the stateful supervisor/queue code becomes explicit
state-passing functions.  Every definition mirrors one function of the
source (named in its doc comment).
-/

namespace NewFlow

/-- The five tracked metric fields, `TRACK_METRICS` in `ParserPost.py`. -/
inductive Metric where
  | views
  | likes
  | comments
  | repost
  | shared
deriving DecidableEq, Repr

/-- A raw timeline entry, i.e. one element of the Python list passed to
`_normalize_timeline`.  `isDict` records whether the entry is a `dict`
(non-dicts are skipped); `ts` is the result of `_parse_ts` on
`str(entry.get("ts_utc", "")).strip()` (absolute seconds, `none` when the
timestamp is missing or unparsable); each metric field is
`entry.get(metric)` filtered through `isinstance(value, int)`. -/
structure RawEntry where
  isDict : Bool
  ts : Option Int
  views : Option Int
  likes : Option Int
  comments : Option Int
  repost : Option Int
  shared : Option Int
deriving DecidableEq, Repr

/-- A canonical timeline point as produced by `_normalize_timeline`:
a parseable timestamp plus the five metric fields (each `int` or `None`). -/
structure NormPoint where
  ts : Int
  views : Option Int
  likes : Option Int
  comments : Option Int
  repost : Option Int
  shared : Option Int
deriving DecidableEq, Repr

/-- `point.get(metric)` with the `isinstance(value, int)` filter
(`_metric_value` in `ParserPost.py`) on a canonical point. -/
def NormPoint.metric (p : NormPoint) : Metric → Option Int
  | .views => p.views
  | .likes => p.likes
  | .comments => p.comments
  | .repost => p.repost
  | .shared => p.shared

/-- The body of the `for entry in raw_timeline` loop of `_normalize_timeline`:
a non-dict entry or one without a parseable `ts_utc` is dropped, otherwise
the entry becomes a canonical point. -/
def normPoint (e : RawEntry) : Option NormPoint :=
  if e.isDict then
    match e.ts with
    | some t => some ⟨t, e.views, e.likes, e.comments, e.repost, e.shared⟩
    | none => none
  else none

/-- Re-injection of a canonical point into a raw entry: the dict
`{"ts_utc": ts.isoformat(), metric: value_or_None, ...}` that
`_normalize_timeline` stores and other code may feed back into it. -/
def toRaw (p : NormPoint) : RawEntry :=
  ⟨true, some p.ts, p.views, p.likes, p.comments, p.repost, p.shared⟩

/-- The canonical points of a raw timeline, in list order (the loop of
`_normalize_timeline` before deduplication). -/
def keyed (l : List RawEntry) : List NormPoint :=
  l.filterMap normPoint

/-- Deduplication by timestamp with last-write-wins, as performed by the
`bucket[point["ts_utc"]] = point` dict in `_normalize_timeline`: a point is
kept iff no later entry of the list carries the same timestamp. -/
def dedupLast : List NormPoint → List NormPoint
  | [] => []
  | p :: rest =>
      if rest.any (fun q => q.ts == p.ts) then dedupLast rest
      else p :: dedupLast rest

/-- Comparison by timestamp used by the final
`sorted(bucket.values(), key=...)` of `_normalize_timeline`. -/
def tsLE (p q : NormPoint) : Prop := p.ts ≤ q.ts

/-- Strict timestamp order; after deduplication the sorted timeline is
strictly increasing in `ts`. -/
def tsLT (p q : NormPoint) : Prop := p.ts < q.ts

instance : DecidableRel tsLE := fun p q => inferInstanceAs (Decidable (p.ts ≤ q.ts))

instance : DecidableRel tsLT := fun p q => inferInstanceAs (Decidable (p.ts < q.ts))

instance : IsTotal NormPoint tsLE := ⟨fun p q => Int.le_total p.ts q.ts⟩

instance : IsTrans NormPoint tsLE := ⟨fun _ _ _ h₁ h₂ => le_trans h₁ h₂⟩

instance : IsAntisymm NormPoint tsLT :=
  ⟨fun _ _ h₁ h₂ => absurd (lt_trans h₁ h₂) (lt_irrefl _)⟩

/-- `_normalize_timeline` of `ParserPost.py`: keep the dict entries with a
parseable timestamp, deduplicate by timestamp (last write wins), sort by
timestamp ascending. -/
def normalizeTimeline (l : List RawEntry) : List NormPoint :=
  List.insertionSort tsLE (dedupLast (keyed l))

/-- The merge of two timelines: `_normalize_timeline` applied to their
concatenation, exactly as `_merge_tracking` combines
`base["timeline"] + extra["timeline"]`. -/
def mergeTimeline (a b : List RawEntry) : List NormPoint :=
  normalizeTimeline (a ++ b)

/-- The last canonical point of a list carrying a given timestamp (the value
the `bucket` dict of `_normalize_timeline` ends up holding at that key). -/
def lastAt : List NormPoint → Int → Option NormPoint
  | [], _ => none
  | p :: rest, t =>
      match lastAt rest t with
      | some q => some q
      | none => if p.ts = t then some p else none

/-- Shift of a canonical point by `d` seconds (proof helper used to relate
hourly computations at different anchor times). -/
def shiftPt (d : Int) (p : NormPoint) : NormPoint := { p with ts := p.ts + d }

/-- The `%H:%M–%H:%M` Moscow-time label built by `_format_hour_range`
(`MSK_TZ` is the fixed offset UTC+3), kept as the four rendered numbers. -/
structure HourRange where
  startHour : Nat
  startMin : Nat
  endHour : Nat
  endMin : Nat
deriving DecidableEq, Repr

/-- Hour and minute of an absolute time rendered at UTC+3. -/
def mskHM (t : Int) : Nat × Nat :=
  (((t + 10800) / 3600 % 24).toNat, ((t + 10800) / 60 % 60).toNat)

/-- `_format_hour_range` of `ParserPost.py`. -/
def formatHourRange (s e : Int) : HourRange :=
  ⟨(mskHM s).1, (mskHM s).2, (mskHM e).1, (mskHM e).2⟩

/-- One row of the hourly table built by `_compute_hourly_metric`:
`{"hour": h, "range": ..., "delta": value - prev}`. -/
structure HourRow where
  hour : Nat
  range : HourRange
  delta : Int
deriving DecidableEq, Repr

/-- The loop of `_value_at_time`: walk the timeline in order, stop at the
first point past `target`, and keep the most recent integer value of the
metric seen so far (`acc`). -/
def valueAtTimeGo (target : Int) (m : Metric) :
    List NormPoint → Option Int → Option Int
  | [], acc => acc
  | p :: rest, acc =>
      if target < p.ts then acc
      else
        valueAtTimeGo target m rest
          (match p.metric m with
           | some v => some v
           | none => acc)

/-- `_value_at_time` of `ParserPost.py`: the last metric value at or before
`target` in a normalized timeline. -/
def valueAtTime (timeline : List NormPoint) (target : Int) (m : Metric) :
    Option Int :=
  valueAtTimeGo target m timeline none

/-- The `for hour in range(1, 25)` loop of `_compute_hourly_metric`:
`k` counts the remaining iterations, `hour` is the current hour index and
`prev` the previous hour's resolved value. -/
def hourlyRowsAux (tl : List NormPoint) (start : Int) (m : Metric) :
    Nat → Nat → Int → List HourRow
  | 0, _, _ => []
  | k + 1, hour, prev =>
      let endTs := start + 3600 * (hour : Int)
      let value := (valueAtTime tl endTs m).getD prev
      ⟨hour, formatHourRange (endTs - 3600) endTs, value - prev⟩
        :: hourlyRowsAux tl start m k (hour + 1) value

/-- `_compute_hourly_metric` of `ParserPost.py`: 24 hourly rows, starting
from the baseline value at `start` (0 when no value exists yet). -/
def computeHourlyMetric (tl : List NormPoint) (start : Int) (m : Metric) :
    List HourRow :=
  hourlyRowsAux tl start m 24 1 ((valueAtTime tl start m).getD 0)

/-- The `history_24h` document written by `_update_history_24h`: the five
per-metric hourly tables plus the bookkeeping fields. -/
structure History where
  startTs : Int
  readyHours : Int
  finalized : Bool
  updatedAt : Int
  viewsRows : List HourRow
  likesRows : List HourRow
  commentsRows : List HourRow
  repostRows : List HourRow
  sharedRows : List HourRow
  completedAt : Option Int
deriving DecidableEq, Repr

/-- A `tracking` document as consumed by `_update_history_24h`:
`started_at_utc` (parsed; `none` when unresolvable), the normalized
timeline and the optional `history_24h`. -/
structure Tracking where
  startedAt : Option Int
  timeline : List NormPoint
  history : Option History
deriving DecidableEq, Repr

/-- `ready_hours` as computed by `_update_history_24h`:
`int((now - start).total_seconds() // 3600)` clamped to `[0, 24]`
(Python `//` is floor division, which is `Int` division here). -/
def readyHoursOf (start now : Int) : Int :=
  let rh := (now - start) / 3600
  if rh < 0 then 0 else if 24 < rh then 24 else rh

/-- `_update_history_24h` of `ParserPost.py`: recompute the hourly tables up
to `ready_hours`, set `finalized = ready_hours >= 24`, stamp
`completed_at_utc = start + 24h` when finalized, and always restamp
`updated_at_utc = now`.  A tracking record without a resolvable start time
is returned untouched. -/
def updateHistory24h (tr : Tracking) (now : Int) : Tracking :=
  match tr.startedAt with
  | none => tr
  | some start =>
      let rh := readyHoursOf start now
      { tr with
          history := some
            { startTs := start
              readyHours := rh
              finalized := decide (24 ≤ rh)
              updatedAt := now
              viewsRows := (computeHourlyMetric tr.timeline start .views).take rh.toNat
              likesRows := (computeHourlyMetric tr.timeline start .likes).take rh.toNat
              commentsRows := (computeHourlyMetric tr.timeline start .comments).take rh.toNat
              repostRows := (computeHourlyMetric tr.timeline start .repost).take rh.toNat
              sharedRows := (computeHourlyMetric tr.timeline start .shared).take rh.toNat
              completedAt := if 24 ≤ rh then some (start + 86400) else none } }

/-- A stored `history_24h` dict as `_merge_tracking` and `_tracking_rank`
see it: only the truthiness of its `finalized` key is inspected;
`content` stands for the remainder of the document and lets two candidate
histories be told apart. -/
structure HistDoc where
  finalized : Bool
  content : Nat
deriving DecidableEq, Repr

/-- A raw `tracking` dict before `_normalize_tracking`. -/
structure RawTracking where
  startedAt : Option Int
  timeline : List RawEntry
  history : Option HistDoc
deriving DecidableEq, Repr

/-- A `tracking` dict after `_normalize_tracking`. -/
structure NormTracking where
  startedAt : Option Int
  timeline : List NormPoint
  history : Option HistDoc
deriving DecidableEq, Repr

/-- `_normalize_tracking` of `ParserPost.py`: keep the parsed start time,
normalize the timeline, copy the history document when it is a dict. -/
def normalizeTracking (t : RawTracking) : NormTracking :=
  ⟨t.startedAt, normalizeTimeline t.timeline, t.history⟩

/-- Truthiness of `tracking.get("history_24h", {}).get("finalized")` for a
present-or-absent history document. -/
def finFlag (h : Option HistDoc) : Bool :=
  (h.map HistDoc.finalized).getD false

/-- `_tracking_rank` of `ParserPost.py`: the tuple
`(start_rank, -finalized, -timeline_len)` where `start_rank` is the parsed
start time or `+inf` (`none` here) when unresolvable. -/
def trackingRank (startedAt : Option Int) (timelineLen : Nat)
    (history : Option HistDoc) : Option Int × Int × Int :=
  (startedAt, if finFlag history then -1 else 0, -(timelineLen : Int))

/-- Strict order on the start component, `none` playing `float("inf")`. -/
def startLtB : Option Int → Option Int → Bool
  | some a, some b => a < b
  | some _, none => true
  | none, _ => false

/-- Equality on the start component, `none` playing `float("inf")`. -/
def startEqB : Option Int → Option Int → Bool
  | some a, some b => a == b
  | none, none => true
  | _, _ => false

/-- Python's lexicographic `<` on the rank tuples. -/
def rankLt (a b : Option Int × Int × Int) : Bool :=
  startLtB a.1 b.1 ||
    (startEqB a.1 b.1 && (a.2.1 < b.2.1 || (a.2.1 == b.2.1 && a.2.2 < b.2.2)))

/-- `_merge_tracking` of `ParserPost.py`: normalize both sides, keep the
earliest resolvable start, merge the timelines, and keep the history of the
side whose rank tuple is strictly smaller — note that the rank is computed
on a record carrying only `history_24h` and `timeline`, without
`started_at_utc`. -/
def mergeTracking (base extra : RawTracking) : NormTracking :=
  let b := normalizeTracking base
  let e := normalizeTracking extra
  let started : Option Int :=
    match b.startedAt, e.startedAt with
    | some x, some y => some (min x y)
    | some x, none => some x
    | none, some y => some y
    | none, none => none
  let timeline := normalizeTimeline (b.timeline.map toRaw ++ e.timeline.map toRaw)
  let hist :=
    if rankLt (trackingRank none e.timeline.length e.history)
        (trackingRank none b.timeline.length b.history)
    then e.history
    else b.history
  ⟨started, timeline, hist⟩

/-- The ranking triple exactly as claim C8 words it: start time ascending
with an unresolvable start ranked last, then finalized preferred, then
longer timeline preferred.  Stated from the claim's words for comparison
with `mergeTracking`, which feeds `trackingRank` a record without the start
time. -/
def claimRank (t : NormTracking) : Option Int × Int × Int :=
  trackingRank t.startedAt t.timeline.length t.history

/-- A worker heartbeat document as `_health_stale` reads it: the parse
results of `last_request_ts_utc` and `last_response_ts_utc`.  An unreadable
or empty document is `none` at the use site. -/
structure HealthRec where
  reqTs : Option Int
  respTs : Option Int
deriving DecidableEq, Repr

/-- `HEALTH_TIMEOUT_SEC` of `parsers_bridge.py` (5 minutes). -/
def healthTimeoutSec : Int := 300

/-- `HEALTH_START_GRACE_SEC` of `parsers_bridge.py`. -/
def healthStartGraceSec : Int := 90

/-- The grace test of `_health_stale`, mirroring
`if started_at and now - started_at < HEALTH_START_GRACE_SEC`: a `0.0`
start time is falsy in Python, hence the `s ≠ 0` conjunct. -/
def graceActive (startedAt : Option Int) (now : Int) : Bool :=
  match startedAt with
  | some s => decide (s ≠ 0) && decide (now - s < healthStartGraceSec)
  | none => false

/-- The staleness checks of `_health_stale` after the grace period: the
sequence of early returns over the record's request/response
timestamps. -/
def staleCheck (health : Option HealthRec) (now : Int) : Bool × String :=
  match health with
  | none => (true, "health_missing")
  | some h =>
      match h.reqTs with
      | none => (true, "no_request")
      | some r =>
          if healthTimeoutSec < now - r then (true, "request_timeout")
          else
            match h.respTs with
            | none => (true, "no_response")
            | some p =>
                if healthTimeoutSec < now - p then (true, "response_timeout")
                else (false, "")

/-- `_health_stale` of `parsers_bridge.py`. -/
def healthStale (health : Option HealthRec) (startedAt : Option Int)
    (now : Int) : Bool × String :=
  if graceActive startedAt now then (false, "")
  else staleCheck health now

/-- The startup grace condition of `_health_stale`, declaratively. -/
def inGrace (startedAt : Option Int) (now : Int) : Prop :=
  ∃ s, startedAt = some s ∧ s ≠ 0 ∧ now - s < healthStartGraceSec

/-- The staleness conditions of claim C4 as one declarative disjunction:
unreadable/empty record, missing or timed-out request timestamp, missing or
timed-out response timestamp. -/
def staleCondition (health : Option HealthRec) (now : Int) : Prop :=
  health = none ∨
    ∃ h, health = some h ∧
      (h.reqTs = none ∨
       (∃ r, h.reqTs = some r ∧ healthTimeoutSec < now - r) ∨
       h.respTs = none ∨
       (∃ p, h.respTs = some p ∧ healthTimeoutSec < now - p))

/-- The per-kind supervisor state touched by `start_posts_parser` /
`start_accounts_parser`: the owned process handle (`_is_running`), the
OS-level scan result (`_system_has_process`, an oracle input here), script
existence, recorded start time, the expected-running flag, the log handle
and the watchdog flag. -/
structure WorkerState where
  procRunning : Bool
  sysRunning : Bool
  scriptExists : Bool
  startedAt : Option Int
  expectedRunning : Bool
  logOpen : Bool
  watchdogStarted : Bool
deriving DecidableEq, Repr

/-- `start_posts_parser` / `start_accounts_parser` of `parsers_bridge.py`
(both have the same control flow).  The returned `Bool` records whether
`subprocess.Popen` was invoked. -/
def startWorker (st : WorkerState) (now : Int) : WorkerState × Bool :=
  let st1 := { st with expectedRunning := true }
  if st1.procRunning || st1.sysRunning then
    ({ st1 with
        startedAt := match st1.startedAt with
          | none => some now
          | some s => some s
        watchdogStarted := true }, false)
  else if st1.scriptExists = false then (st1, false)
  else
    ({ st1 with
        procRunning := true
        logOpen := true
        startedAt := some now
        watchdogStarted := true }, true)

/-- Python `str.strip()` with no argument: drop whitespace on both ends.
`pyIsSpace` is the whitespace test. -/
def pyIsSpace (c : Char) : Bool := c.isWhitespace

/-- Leading-whitespace removal. -/
def lstrip (l : List Char) : List Char := l.dropWhile pyIsSpace

/-- Trailing-whitespace removal. -/
def rstrip (l : List Char) : List Char := (l.reverse.dropWhile pyIsSpace).reverse

/-- `value.strip()` on a string given as its character list. -/
def pyStrip (l : List Char) : List Char := rstrip (lstrip l)

/-- `value.strip()` on a `String`. -/
def pyStripStr (s : String) : String := ⟨pyStrip s.data⟩

/-- "no leading whitespace": the first character, if any, is not space. -/
def noLead (l : List Char) : Prop :=
  ∀ c, l.head? = some c → pyIsSpace c = false

/-- "no trailing whitespace": the last character, if any, is not space. -/
def noTrail (l : List Char) : Prop :=
  ∀ c, l.getLast? = some c → pyIsSpace c = false

/-- Whether a `stats_by_url` value satisfies `isinstance(value, dict)`
(`_normalize_stats_map` keeps only dict values). -/
inductive SVal where
  | dictV
  | otherV
deriving DecidableEq, Repr

/-- The raw `stats_by_url` field: either not a dict at all, or a dict given
as its (key, value-kind) entries in insertion order. -/
inductive RawStats where
  | notDict
  | dict (entries : List (String × SVal))
deriving DecidableEq, Repr

/-- `out[target] = value` on the association-list model of a Python dict:
overwrite in place when the key exists, append otherwise. -/
def assocUpdate (out : List (String × SVal)) (k : String) (v : SVal) :
    List (String × SVal) :=
  if out.any (fun p => p.1 == k) then
    out.map (fun p => if p.1 == k then (k, v) else p)
  else out ++ [(k, v)]

/-- `_normalize_stats_map` of `parser_events.py`: keep entries whose
stripped key is non-empty and whose value is a dict. -/
def normalizeStatsMap : RawStats → List (String × SVal)
  | .notDict => []
  | .dict entries =>
      entries.foldl
        (fun out kv =>
          let target := pyStripStr kv.1
          if target = "" then out
          else
            match kv.2 with
            | .dictV => assocUpdate out target .dictV
            | .otherV => out)
        []

/-- A submitted event `{type, stats_by_url}` (a dict payload). -/
structure Event where
  type : String
  stats : RawStats
deriving DecidableEq, Repr

/-- The recognized batch types of `enqueue_parser_event`. -/
def recognizedType (t : String) : Bool :=
  t == "accounts_stats_batch" || t == "posts_stats_batch"

/-- `enqueue_parser_event` of `parser_events.py` acting on the bounded
`asyncio.Queue` (modelled as the list of pending events with capacity
`cap`; `put_nowait` raises `QueueFull` exactly when `0 < maxsize` and
`qsize >= maxsize`). -/
def enqueueParserEvent (cap : Nat) (q : List Event) (e : Event) :
    (Bool × String) × List Event :=
  if recognizedType (pyStripStr e.type) = false then ((false, "invalid_type"), q)
  else if normalizeStatsMap e.stats = [] then ((false, "empty_stats"), q)
  else if 0 < cap ∧ cap ≤ q.length then ((false, "queue_full"), q)
  else ((true, "queued"), q ++ [e])

/-- An event that passes the synchronous validation of
`enqueue_parser_event`. -/
def wellFormedEvent (e : Event) : Bool :=
  recognizedType (pyStripStr e.type) && decide (normalizeStatsMap e.stats ≠ [])

/-- A sequence of submissions with no intervening consumer drain: the
results of each call and the final queue. -/
def submitAll (cap : Nat) : List Event → List Event → List (Bool × String) × List Event
  | q, [] => ([], q)
  | q, e :: es =>
      let r := enqueueParserEvent cap q e
      let rest := submitAll cap r.2 es
      (r.1 :: rest.1, rest.2)

/-- Boolean prefix test (`value.startswith(...)`). -/
def startsWithL (p l : List Char) : Bool := List.isPrefixOf p l

/-- `normalize_account` of `parsers_bridge.py` on the character list of the
input string. -/
def normalizeAccount (s : List Char) : List Char :=
  let v := pyStrip s
  if v = [] then []
  else if startsWithL "http://".data v || startsWithL "https://".data v then v
  else
    "https://www.threads.com/@".data ++
      (if startsWithL "@".data v then v.drop 1 else v)

theorem lastAt_append (m m' : List NormPoint) (t : Int) :
    lastAt (m ++ m') t = (lastAt m' t).or (lastAt m t) := by
  induction m with
  | nil => cases h : lastAt m' t <;> simp [lastAt, Option.or, h]
  | cons p rest ih =>
      simp only [List.cons_append, lastAt, List.append_eq]
      rw [ih]
      cases h1 : lastAt m' t <;> cases h2 : lastAt rest t <;>
        simp [Option.or]

theorem lastAt_eq_some (m : List NormPoint) (t : Int) (p : NormPoint)
    (h : lastAt m t = some p) : p.ts = t ∧ p ∈ m := by
  induction m with
  | nil => simp [lastAt] at h
  | cons q rest ih =>
      simp only [lastAt] at h
      cases hr : lastAt rest t with
      | some r =>
          rw [hr] at h
          obtain rfl : r = p := by simpa using h
          rcases ih hr with ⟨h1, h2⟩
          exact ⟨h1, List.mem_cons_of_mem _ h2⟩
      | none =>
          rw [hr] at h
          by_cases hq : q.ts = t
          · simp [hq] at h
            exact ⟨h ▸ hq, h ▸ List.mem_cons_self _ _⟩
          · simp [hq] at h

theorem lastAt_isSome_of_mem (m : List NormPoint) (p : NormPoint)
    (hp : p ∈ m) : (lastAt m p.ts).isSome := by
  induction m with
  | nil => simp at hp
  | cons q rest ih =>
      simp only [lastAt]
      cases hr : lastAt rest p.ts with
      | some r => simp
      | none =>
          rcases List.mem_cons.1 hp with rfl | hmem
          · simp
          · have := ih hmem
            rw [hr] at this
            simp at this

theorem lastAt_eq_none_of_not_mem (m : List NormPoint) (t : Int)
    (h : ∀ r ∈ m, r.ts ≠ t) : lastAt m t = none := by
  induction m with
  | nil => rfl
  | cons q rest ih =>
      simp only [lastAt]
      rw [ih (fun r hr => h r (List.mem_cons_of_mem _ hr))]
      simp [h q (List.mem_cons_self _ _)]

theorem dedupLast_subset (m : List NormPoint) (p : NormPoint)
    (h : p ∈ dedupLast m) : p ∈ m := by
  induction m with
  | nil => simp [dedupLast] at h
  | cons q rest ih =>
      simp only [dedupLast] at h
      by_cases hany : rest.any (fun r => r.ts == q.ts)
      · rw [if_pos hany] at h
        exact List.mem_cons_of_mem _ (ih h)
      · rw [if_neg hany] at h
        rcases List.mem_cons.1 h with rfl | hmem
        · exact List.mem_cons_self _ _
        · exact List.mem_cons_of_mem _ (ih hmem)

theorem mem_dedupLast (m : List NormPoint) (p : NormPoint) :
    p ∈ dedupLast m ↔ lastAt m p.ts = some p := by
  induction m with
  | nil => simp [dedupLast, lastAt]
  | cons q rest ih =>
      simp only [dedupLast, lastAt]
      by_cases hany : rest.any (fun r => r.ts == q.ts)
      · rw [if_pos hany]
        rw [ih]
        cases hr : lastAt rest p.ts with
        | some r => simp
        | none =>
            simp only []
            constructor
            · intro h; exact absurd h (by simp [hr])
            · intro h
              by_cases hq : q.ts = p.ts
              · obtain ⟨r, hrmem, hrts⟩ := List.any_eq_true.1 hany
                have : r.ts = q.ts := by simpa using hrts
                have hsome := lastAt_isSome_of_mem rest r hrmem
                rw [this, hq, hr] at hsome
                simp at hsome
              · simp [hq] at h
      · rw [if_neg hany]
        have hnone : ∀ t, q.ts = t → lastAt rest t = none := by
          intro t ht
          apply lastAt_eq_none_of_not_mem
          intro r hr hrts
          exact hany (List.any_eq_true.2 ⟨r, hr, by simp [hrts, ← ht]⟩)
        constructor
        · intro h
          rcases List.mem_cons.1 h with rfl | hmem
          · rw [hnone p.ts rfl]
            simp
          · have := ih.1 hmem
            rw [this]
        · intro h
          cases hr : lastAt rest p.ts with
          | some r =>
              rw [hr] at h
              obtain rfl : r = p := by simpa using h
              exact List.mem_cons_of_mem _ (ih.2 hr)
          | none =>
              rw [hr] at h
              by_cases hq : q.ts = p.ts
              · rw [if_pos hq] at h
                obtain rfl : q = p := by simpa using h
                exact List.mem_cons_self _ _
              · rw [if_neg hq] at h
                simp at h

theorem pairwise_ne_dedupLast (m : List NormPoint) :
    (dedupLast m).Pairwise (fun p q => p.ts ≠ q.ts) := by
  induction m with
  | nil => simp [dedupLast]
  | cons q rest ih =>
      simp only [dedupLast]
      by_cases hany : rest.any (fun r => r.ts == q.ts)
      · rw [if_pos hany]; exact ih
      · rw [if_neg hany]
        refine List.Pairwise.cons ?_ ih
        intro r hr hrts
        exact hany (List.any_eq_true.2
          ⟨r, dedupLast_subset rest r hr, by simp [hrts]⟩)

theorem mem_normalizeTimeline (l : List RawEntry) (p : NormPoint) :
    p ∈ normalizeTimeline l ↔ lastAt (keyed l) p.ts = some p := by
  rw [normalizeTimeline, List.mem_insertionSort, mem_dedupLast]

theorem normalizeTimeline_pairwise_lt (l : List RawEntry) :
    (normalizeTimeline l).Pairwise tsLT := by
  have hsorted : (normalizeTimeline l).Pairwise tsLE :=
    List.sorted_insertionSort tsLE (dedupLast (keyed l))
  have hperm := List.perm_insertionSort tsLE (dedupLast (keyed l))
  have hne : (normalizeTimeline l).Pairwise (fun p q => p.ts ≠ q.ts) :=
    ((List.Perm.pairwise_iff (fun h => h.symm) hperm).2
      (pairwise_ne_dedupLast (keyed l)))
  exact (hsorted.and hne).imp fun h => lt_of_le_of_ne h.1 h.2

theorem normalizeTimeline_nodup (l : List RawEntry) :
    (normalizeTimeline l).Nodup :=
  (normalizeTimeline_pairwise_lt l).imp fun h => by
    intro he; rw [he] at h; exact absurd h (lt_irrefl _)

/-- Two normalized timelines with the same members are equal: both are
strictly sorted by timestamp. -/
theorem normalizeTimeline_ext (l₁ l₂ : List RawEntry)
    (h : ∀ p, p ∈ normalizeTimeline l₁ ↔ p ∈ normalizeTimeline l₂) :
    normalizeTimeline l₁ = normalizeTimeline l₂ := by
  have hperm := (List.perm_ext_iff_of_nodup
    (normalizeTimeline_nodup l₁) (normalizeTimeline_nodup l₂)).2 h
  exact List.eq_of_perm_of_sorted hperm
    (normalizeTimeline_pairwise_lt l₁) (normalizeTimeline_pairwise_lt l₂)

theorem normPoint_toRaw (p : NormPoint) : normPoint (toRaw p) = some p := rfl

theorem keyed_append (a b : List RawEntry) :
    keyed (a ++ b) = keyed a ++ keyed b :=
  List.filterMap_append a b normPoint

theorem keyed_map_toRaw (m : List NormPoint) : keyed (m.map toRaw) = m := by
  induction m with
  | nil => rfl
  | cons p rest ih => simp [keyed, normPoint, toRaw] at ih ⊢; exact ih

theorem lastAt_of_mem_pairwise (m : List NormPoint) (p : NormPoint) (t : Int)
    (hpw : m.Pairwise (fun p q => p.ts ≠ q.ts)) (hp : p ∈ m) (ht : p.ts = t) :
    lastAt m t = some p := by
  induction m with
  | nil => simp at hp
  | cons q rest ih =>
      rcases List.pairwise_cons.1 hpw with ⟨hq, hrest⟩
      simp only [lastAt]
      rcases List.mem_cons.1 hp with rfl | hmem
      · rw [lastAt_eq_none_of_not_mem rest t
          (fun r hr => fun he => hq r hr (by rw [ht, he]))]
        simp [ht]
      · rw [ih hrest hmem]

theorem lastAt_normalizeTimeline (l : List RawEntry) (t : Int) :
    lastAt (normalizeTimeline l) t = lastAt (keyed l) t := by
  have hpw : (normalizeTimeline l).Pairwise (fun p q => p.ts ≠ q.ts) :=
    (normalizeTimeline_pairwise_lt l).imp fun h => ne_of_lt h
  cases hk : lastAt (keyed l) t with
  | some p =>
      rcases lastAt_eq_some _ _ _ hk with ⟨hts, _⟩
      have hmem : p ∈ normalizeTimeline l :=
        (mem_normalizeTimeline l p).2 (by rw [hts]; exact hk)
      exact lastAt_of_mem_pairwise _ p t hpw hmem hts
  | none =>
      cases hn : lastAt (normalizeTimeline l) t with
      | none => rfl
      | some q =>
          rcases lastAt_eq_some _ _ _ hn with ⟨hts, hmem⟩
          have := (mem_normalizeTimeline l q).1 hmem
          rw [hts, hk] at this
          exact absurd this (by simp)

theorem mergeTimeline_assoc (A B C : List RawEntry) :
    mergeTimeline ((mergeTimeline A B).map toRaw) C
      = mergeTimeline A ((mergeTimeline B C).map toRaw) := by
  simp only [mergeTimeline]
  apply normalizeTimeline_ext
  intro p
  rw [mem_normalizeTimeline, mem_normalizeTimeline, keyed_append, keyed_append,
    keyed_map_toRaw, keyed_map_toRaw, lastAt_append, lastAt_append,
    lastAt_normalizeTimeline, lastAt_normalizeTimeline, keyed_append,
    keyed_append, lastAt_append, lastAt_append, Option.or_assoc]

theorem mergeTimeline_idem (A : List RawEntry) :
    mergeTimeline A A = normalizeTimeline A := by
  simp only [mergeTimeline]
  apply normalizeTimeline_ext
  intro p
  rw [mem_normalizeTimeline, mem_normalizeTimeline, keyed_append,
    lastAt_append, Option.or_self]

theorem mergeTimeline_comm_of_agree (A B : List RawEntry)
    (h : ∀ p ∈ keyed A, ∀ q ∈ keyed B, p.ts = q.ts → p = q) :
    mergeTimeline A B = mergeTimeline B A := by
  simp only [mergeTimeline]
  apply normalizeTimeline_ext
  intro p
  rw [mem_normalizeTimeline, mem_normalizeTimeline, keyed_append, keyed_append,
    lastAt_append, lastAt_append]
  have hor : (lastAt (keyed B) p.ts).or (lastAt (keyed A) p.ts)
      = (lastAt (keyed A) p.ts).or (lastAt (keyed B) p.ts) := by
    cases ha : lastAt (keyed A) p.ts with
    | none => simp
    | some pa =>
        cases hb : lastAt (keyed B) p.ts with
        | none => simp
        | some pb =>
            rcases lastAt_eq_some _ _ _ ha with ⟨hta, hma⟩
            rcases lastAt_eq_some _ _ _ hb with ⟨htb, hmb⟩
            rw [h pa hma pb hmb (by rw [hta, htb])]
  rw [hor]

/-- C1: the claim as stated is false — merge is not commutative when the two
timelines carry points with the same timestamp but different metric values,
because `_normalize_timeline` keeps the last write for a timestamp, so the
right operand's point wins. -/
theorem C1_counterexample :
    mergeTimeline [⟨true, some 0, some 10, none, none, none, none⟩]
        [⟨true, some 0, some 20, none, none, none, none⟩]
      ≠ mergeTimeline [⟨true, some 0, some 20, none, none, none, none⟩]
        [⟨true, some 0, some 10, none, none, none, none⟩] := by
  decide

/-- C1 (amended): for all timelines A, B, C the merge — `normalize_timeline`
of the concatenation — is associative and idempotent
(`merge(A,A) = normalize_timeline(A)`); it is commutative provided A and B
hold no points with the same timestamp but different metric values. -/
theorem C1_merge_algebra (A B C : List RawEntry) :
    (mergeTimeline ((mergeTimeline A B).map toRaw) C
        = mergeTimeline A ((mergeTimeline B C).map toRaw))
    ∧ mergeTimeline A A = normalizeTimeline A
    ∧ ((∀ p ∈ keyed A, ∀ q ∈ keyed B, p.ts = q.ts → p = q) →
        mergeTimeline A B = mergeTimeline B A) :=
  ⟨mergeTimeline_assoc A B C, mergeTimeline_idem A,
    fun h => mergeTimeline_comm_of_agree A B h⟩

/-- Witness for C1 at two concrete conflict-free timelines. -/
theorem C1_merge_algebra_witness :
    mergeTimeline [⟨true, some 0, some 1, none, none, none, none⟩]
        [⟨true, some 3600, some 2, none, none, none, none⟩]
      = mergeTimeline [⟨true, some 3600, some 2, none, none, none, none⟩]
        [⟨true, some 0, some 1, none, none, none, none⟩] :=
  (C1_merge_algebra [⟨true, some 0, some 1, none, none, none, none⟩]
      [⟨true, some 3600, some 2, none, none, none, none⟩] []).2.2 (by
    intro p hp q hq hts
    simp [keyed, normPoint] at hp hq
    subst hp; subst hq
    simp at hts)

theorem metric_shiftPt (d : Int) (p : NormPoint) (m : Metric) :
    (shiftPt d p).metric m = p.metric m := by
  cases m <;> rfl

theorem valueAtTimeGo_shift (d : Int) (m : Metric) (tl : List NormPoint)
    (target : Int) (acc : Option Int) :
    valueAtTimeGo (target + d) m (tl.map (shiftPt d)) acc
      = valueAtTimeGo target m tl acc := by
  induction tl generalizing acc with
  | nil => rfl
  | cons p rest ih =>
      simp only [List.map_cons, valueAtTimeGo, metric_shiftPt]
      have hc : (target + d < (shiftPt d p).ts) ↔ (target < p.ts) := by
        simp only [shiftPt]
        omega
      by_cases h : target < p.ts
      · rw [if_pos (hc.2 h), if_pos h]
      · rw [if_neg (fun hlt => h (hc.1 hlt)), if_neg h, ih]

theorem valueAtTime_shift (d : Int) (tl : List NormPoint) (target : Int)
    (m : Metric) :
    valueAtTime (tl.map (shiftPt d)) (target + d) m = valueAtTime tl target m :=
  valueAtTimeGo_shift d m tl target none

theorem hourlyRowsAux_shift_delta (d : Int) (tl : List NormPoint)
    (start : Int) (m : Metric) (k : Nat) :
    ∀ (hour : Nat) (prev : Int),
      (hourlyRowsAux (tl.map (shiftPt d)) (start + d) m k hour prev).map
          HourRow.delta
        = (hourlyRowsAux tl start m k hour prev).map HourRow.delta := by
  induction k with
  | zero => intro hour prev; rfl
  | succ k ih =>
      intro hour prev
      simp only [hourlyRowsAux, List.map_cons]
      have he : start + d + 3600 * (hour : Int) = start + 3600 * (hour : Int) + d := by
        ring
      rw [he, valueAtTime_shift, ih]

theorem computeHourlyMetric_shift_delta (d : Int) (tl : List NormPoint)
    (start : Int) (m : Metric) :
    (computeHourlyMetric (tl.map (shiftPt d)) (start + d) m).map HourRow.delta
      = (computeHourlyMetric tl start m).map HourRow.delta := by
  simp only [computeHourlyMetric, valueAtTime_shift]
  exact hourlyRowsAux_shift_delta d tl start m 24 1 _

/-- C3: the claim as stated is false — for the points `(t0,10)`,
`(t0+70min,20)`, `(t0+130min,35)` the deltas 10 and 15 do not land in
hourly buckets 1 and 2: bucket `h` samples at `t0 + h` hours, so bucket 1
(sampled at `t0+1h`, before the 70-minute point) has delta 0. -/
theorem C3_counterexample :
    ¬ (((computeHourlyMetric
          [⟨0, some 10, none, none, none, none⟩,
           ⟨4200, some 20, none, none, none, none⟩,
           ⟨7800, some 35, none, none, none, none⟩] 0 Metric.views).map
            HourRow.delta).take 2 = [10, 15]) := by
  decide

/-- C3 (amended): for the timeline holding, for the views metric, the points
`(t0,10)`, `(t0+70min,20)`, `(t0+130min,35)` and tracking start `t0`, the
hourly computation yields delta 0 for bucket 1, delta 20−10 = 10 for bucket
2 and delta 35−20 = 15 for bucket 3. -/
theorem C3_hourly_deltas (t0 : Int) :
    ((computeHourlyMetric
        [⟨t0, some 10, none, none, none, none⟩,
         ⟨t0 + 4200, some 20, none, none, none, none⟩,
         ⟨t0 + 7800, some 35, none, none, none, none⟩] t0 Metric.views).map
          HourRow.delta).take 3 = [0, 10, 15] := by
  have hl : [(⟨t0, some 10, none, none, none, none⟩ : NormPoint),
      ⟨t0 + 4200, some 20, none, none, none, none⟩,
      ⟨t0 + 7800, some 35, none, none, none, none⟩]
      = [(⟨0, some 10, none, none, none, none⟩ : NormPoint),
          ⟨4200, some 20, none, none, none, none⟩,
          ⟨7800, some 35, none, none, none, none⟩].map (shiftPt t0) := by
    simp [shiftPt, Int.add_comm]
  have hs := computeHourlyMetric_shift_delta t0
    [(⟨0, some 10, none, none, none, none⟩ : NormPoint),
      ⟨4200, some 20, none, none, none, none⟩,
      ⟨7800, some 35, none, none, none, none⟩] 0 Metric.views
  rw [zero_add] at hs
  rw [← hl] at hs
  rw [hs]
  decide

theorem readyHoursOf_bounds (start now : Int) :
    0 ≤ readyHoursOf start now ∧ readyHoursOf start now ≤ 24 := by
  simp only [readyHoursOf]
  generalize (now - start) / 3600 = rh
  split
  · omega
  · split <;> omega

theorem readyHoursOf_mono (start now₁ now₂ : Int) (h : now₁ ≤ now₂) :
    readyHoursOf start now₁ ≤ readyHoursOf start now₂ := by
  have hd : (now₁ - start) / 3600 ≤ (now₂ - start) / 3600 :=
    Int.ediv_le_ediv (by decide) (by omega)
  simp only [readyHoursOf]
  revert hd
  generalize (now₁ - start) / 3600 = a
  generalize (now₂ - start) / 3600 = b
  intro hd
  split <;> split <;> omega

theorem readyHoursOf_eq_24 (start now : Int) (h : start + 86401 ≤ now) :
    readyHoursOf start now = 24 := by
  have hd : (86401 : Int) / 3600 ≤ (now - start) / 3600 :=
    Int.ediv_le_ediv (by decide) (by omega)
  have h24 : (86401 : Int) / 3600 = 24 := by decide
  rw [h24] at hd
  simp only [readyHoursOf]
  revert hd
  generalize (now - start) / 3600 = rh
  intro hd
  split
  · omega
  · split <;> omega

/-- C9: for a tracking record with a resolvable start time, the
`ready_hours` written by `_update_history_24h` is monotonically
non-decreasing in `now` and never exceeds 24. -/
theorem C9_ready_hours_monotone (tr : Tracking) (start now₁ now₂ : Int)
    (hst : tr.startedAt = some start) (h : now₁ ≤ now₂) :
    ∃ h₁ h₂ : History,
      (updateHistory24h tr now₁).history = some h₁ ∧
      (updateHistory24h tr now₂).history = some h₂ ∧
      h₁.readyHours ≤ h₂.readyHours ∧ h₂.readyHours ≤ 24 := by
  simp only [updateHistory24h, hst]
  exact ⟨_, _, rfl, rfl, readyHoursOf_mono start now₁ now₂ h,
    (readyHoursOf_bounds start now₂).2⟩

/-- Witness for C9 at a concrete record and pair of times. -/
theorem C9_ready_hours_monotone_witness :
    ∃ h₁ h₂ : History,
      (updateHistory24h ⟨some 0, [], none⟩ 10).history = some h₁ ∧
      (updateHistory24h ⟨some 0, [], none⟩ 7200).history = some h₂ ∧
      h₁.readyHours ≤ h₂.readyHours ∧ h₂.readyHours ≤ 24 :=
  C9_ready_hours_monotone ⟨some 0, [], none⟩ 0 10 7200 rfl (by decide)

/-- C2: the claim as stated is false — `_update_history_24h` has no
finalized-guard, so a second call with a later `now` rewrites the window
and restamps its `updated_at_utc` field: the window is not left
unchanged. -/
theorem C2_counterexample :
    (updateHistory24h (updateHistory24h ⟨some 0, [], none⟩ 86401) 86402).history
      ≠ (updateHistory24h ⟨some 0, [], none⟩ 86401).history := by
  decide

/-- C2 (amended): with resolvable start `start` and a fixed timeline,
`_update_history_24h` at `now = start + 24h + 1s` yields
`ready_hours = 24`, `finalized = true`, `completed_at = start + 24h`;
a second call with any later `now₂` leaves every field of the window
unchanged except `updated_at_utc`, which is restamped to `now₂`. -/
theorem C2_finalization (tr : Tracking) (start now₂ : Int)
    (hst : tr.startedAt = some start) (h2 : start + 86401 ≤ now₂) :
    ∃ h₁ : History,
      (updateHistory24h tr (start + 86401)).history = some h₁ ∧
      h₁.readyHours = 24 ∧ h₁.finalized = true ∧
      h₁.completedAt = some (start + 86400) ∧
      (updateHistory24h (updateHistory24h tr (start + 86401)) now₂).history
        = some { h₁ with updatedAt := now₂ } := by
  have e₁ : readyHoursOf start (start + 86401) = 24 :=
    readyHoursOf_eq_24 start (start + 86401) (by omega)
  have e₂ : readyHoursOf start now₂ = 24 :=
    readyHoursOf_eq_24 start now₂ h2
  simp only [updateHistory24h, hst, e₁, e₂]
  refine ⟨_, rfl, rfl, rfl, by simp, ?_⟩
  rfl

/-- Witness for C2 at a concrete record and pair of times. -/
theorem C2_finalization_witness :
    ∃ h₁ : History,
      (updateHistory24h ⟨some 0, [], none⟩ (0 + 86401)).history = some h₁ ∧
      h₁.readyHours = 24 ∧ h₁.finalized = true ∧
      h₁.completedAt = some (0 + 86400) ∧
      (updateHistory24h (updateHistory24h ⟨some 0, [], none⟩ (0 + 86401))
          86402).history
        = some { h₁ with updatedAt := 86402 } :=
  C2_finalization ⟨some 0, [], none⟩ 0 86402 rfl (by decide)

theorem histSelect (bf ef : Bool) (bl el : Nat) (hb he : Option HistDoc) :
    (if rankLt (none, (if ef = true then (-1 : Int) else 0), -(el : Int))
          (none, (if bf = true then (-1 : Int) else 0), -(bl : Int))
      then he else hb)
      = if (ef = true ∧ bf = false) ∨ (ef = bf ∧ bl < el) then he else hb := by
  have hc : ((-el : Int) < -(bl : Int)) ↔ bl < el := by omega
  cases bf <;> cases ef <;>
    simp [rankLt, startLtB, startEqB, hc]

/-- C8: the claim as stated is false — inside `_merge_tracking` the rank is
computed on a record that carries no `started_at_utc`, so both candidates
get start rank `+inf` and an earlier start never wins: here the base window
ranks lowest by the claim's triple, yet the merged history is the extra's
(finalized) one. -/
theorem C8_counterexample :
    rankLt
        (claimRank (normalizeTracking
          ⟨some 0, [⟨true, some 0, some 10, none, none, none, none⟩],
            some ⟨false, 1⟩⟩))
        (claimRank (normalizeTracking
          ⟨some 100, [⟨true, some 100, some 20, none, none, none, none⟩],
            some ⟨true, 2⟩⟩)) = true
    ∧ (mergeTracking
        ⟨some 0, [⟨true, some 0, some 10, none, none, none, none⟩],
          some ⟨false, 1⟩⟩
        ⟨some 100, [⟨true, some 100, some 20, none, none, none, none⟩],
          some ⟨true, 2⟩⟩).history
      = some ⟨true, 2⟩ := by
  decide

/-- C8 (amended): the merged record's start time is the earliest of the
resolvable start times; its `history_24h` is the history of the window
ranked lowest by `(-finalized, -timeline_length)` alone — the start-time
component of the rank is `+inf` for both candidates because
`_merge_tracking` builds the ranked records without `started_at_utc` — with
the base window kept on full ties. -/
theorem C8_merge_tracking (base extra : RawTracking) :
    (∀ s, (mergeTracking base extra).startedAt = some s →
        (base.startedAt = some s ∨ extra.startedAt = some s) ∧
        (∀ x, base.startedAt = some x → s ≤ x) ∧
        (∀ x, extra.startedAt = some x → s ≤ x)) ∧
    ((mergeTracking base extra).startedAt = none ↔
        base.startedAt = none ∧ extra.startedAt = none) ∧
    (mergeTracking base extra).history =
      (if (finFlag extra.history = true ∧ finFlag base.history = false)
          ∨ (finFlag extra.history = finFlag base.history ∧
              (normalizeTimeline base.timeline).length
                < (normalizeTimeline extra.timeline).length)
        then extra.history else base.history) := by
  refine ⟨?_, ?_, ?_⟩
  · intro s hs
    revert hs
    cases hb : base.startedAt with
    | none =>
        cases he : extra.startedAt with
        | none => simp [mergeTracking, normalizeTracking, hb, he]
        | some y =>
            simp only [mergeTracking, normalizeTracking, hb, he]
            intro hs
            obtain rfl : y = s := by simpa using hs
            simp
    | some x =>
        cases he : extra.startedAt with
        | none =>
            simp only [mergeTracking, normalizeTracking, hb, he]
            intro hs
            obtain rfl : x = s := by simpa using hs
            simp
        | some y =>
            simp only [mergeTracking, normalizeTracking, hb, he]
            intro hs
            obtain rfl : min x y = s := by simpa using hs
            refine ⟨?_, ?_, ?_⟩
            · rcases min_choice x y with h | h
              · exact Or.inl (by rw [h])
              · exact Or.inr (by rw [h])
            · intro z hz
              obtain rfl : x = z := by simpa using hz
              exact min_le_left x y
            · intro z hz
              obtain rfl : y = z := by simpa using hz
              exact min_le_right x y
  · cases hb : base.startedAt <;> cases he : extra.startedAt <;>
      simp [mergeTracking, normalizeTracking, hb, he]
  · simp only [mergeTracking, normalizeTracking, trackingRank]
    exact histSelect (finFlag base.history) (finFlag extra.history)
      (normalizeTimeline base.timeline).length
      (normalizeTimeline extra.timeline).length
      base.history extra.history

/-- Witness for C8 at two concrete windows. -/
theorem C8_merge_tracking_witness :
    (⟨some 5, [], none⟩ : RawTracking).startedAt = some 5
      ∨ (⟨some 7, [], some ⟨true, 3⟩⟩ : RawTracking).startedAt = some 5 :=
  ((C8_merge_tracking ⟨some 5, [], none⟩ ⟨some 7, [], some ⟨true, 3⟩⟩).1
    5 (by decide)).1

theorem graceActive_iff (startedAt : Option Int) (now : Int) :
    graceActive startedAt now = true ↔ inGrace startedAt now := by
  cases startedAt with
  | none => simp [graceActive, inGrace]
  | some s => simp [graceActive, inGrace]

/-- C4: the claim as stated is false — `_health_stale` tests the start time
for Python truthiness (`if started_at and ...`), so a present start time
equal to 0.0 does not activate the grace period: with an unreadable record
the classifier reports stale `health_missing` even though a start time is
present and `now - start_time < 90`. -/
theorem C4_counterexample :
    healthStale none (some 0) 50 ≠ (false, "") := by
  decide

theorem staleCheck_iff (health : Option HealthRec) (now : Int) :
    (staleCheck health now).1 = true ↔ staleCondition health now := by
  cases health with
  | none => simp [staleCheck, staleCondition]
  | some h =>
      obtain ⟨req, resp⟩ := h
      cases req with
      | none => simp [staleCheck, staleCondition]
      | some r =>
          cases resp with
          | none =>
              by_cases hrt : healthTimeoutSec < now - r <;>
                simp [staleCheck, staleCondition, hrt]
          | some p =>
              by_cases hrt : healthTimeoutSec < now - r
              · simp [staleCheck, staleCondition, hrt]
              · by_cases hpt : healthTimeoutSec < now - p <;>
                  simp [staleCheck, staleCondition, hrt, hpt]

theorem staleCheck_reason (health : Option HealthRec) (now : Int) :
    (staleCheck health now).1 = false → (staleCheck health now).2 = "" := by
  cases health with
  | none => simp [staleCheck]
  | some h =>
      obtain ⟨req, resp⟩ := h
      cases req with
      | none => simp [staleCheck]
      | some r =>
          cases resp with
          | none =>
              by_cases hrt : healthTimeoutSec < now - r <;>
                simp [staleCheck, hrt]
          | some p =>
              by_cases hrt : healthTimeoutSec < now - r
              · simp [staleCheck, hrt]
              · by_cases hpt : healthTimeoutSec < now - p <;>
                  simp [staleCheck, hrt, hpt]

theorem staleCheck_missing (now : Int) :
    staleCheck none now = (true, "health_missing") := rfl

theorem staleCheck_no_request (h : HealthRec) (now : Int)
    (hreq : h.reqTs = none) :
    staleCheck (some h) now = (true, "no_request") := by
  simp [staleCheck, hreq]

theorem staleCheck_request_timeout (h : HealthRec) (r now : Int)
    (hreq : h.reqTs = some r) (hrt : healthTimeoutSec < now - r) :
    staleCheck (some h) now = (true, "request_timeout") := by
  simp [staleCheck, hreq, hrt]

theorem staleCheck_no_response (h : HealthRec) (r now : Int)
    (hreq : h.reqTs = some r) (hrt : ¬ healthTimeoutSec < now - r)
    (hresp : h.respTs = none) :
    staleCheck (some h) now = (true, "no_response") := by
  simp [staleCheck, hreq, hrt, hresp]

theorem staleCheck_response_timeout (h : HealthRec) (r p now : Int)
    (hreq : h.reqTs = some r) (hrt : ¬ healthTimeoutSec < now - r)
    (hresp : h.respTs = some p) (hpt : healthTimeoutSec < now - p) :
    staleCheck (some h) now = (true, "response_timeout") := by
  simp [staleCheck, hreq, hrt, hresp, hpt]

/-- C4 (amended): whenever a nonzero start time is present and
`now - start_time < 90`, the classifier returns not-stale with empty
reason regardless of the record; otherwise it reports stale exactly when
the record is unreadable/empty, or the request timestamp is missing or
older than the 300-second timeout, or the response timestamp is missing or
older than the same timeout — each with its distinguishing reason code
(`health_missing`, `no_request`, `request_timeout`, `no_response`,
`response_timeout`, in the early-return priority of the code) — and
whenever it reports not-stale the reason is empty. -/
theorem C4_health_classifier (health : Option HealthRec)
    (startedAt : Option Int) (now : Int) :
    (inGrace startedAt now → healthStale health startedAt now = (false, "")) ∧
    (¬ inGrace startedAt now →
      ((healthStale health startedAt now).1 = true ↔
        staleCondition health now) ∧
      (health = none →
        healthStale health startedAt now = (true, "health_missing")) ∧
      (∀ h, health = some h → h.reqTs = none →
        healthStale health startedAt now = (true, "no_request")) ∧
      (∀ h r, health = some h → h.reqTs = some r →
        healthTimeoutSec < now - r →
        healthStale health startedAt now = (true, "request_timeout")) ∧
      (∀ h r, health = some h → h.reqTs = some r →
        ¬ healthTimeoutSec < now - r → h.respTs = none →
        healthStale health startedAt now = (true, "no_response")) ∧
      (∀ h r p, health = some h → h.reqTs = some r →
        ¬ healthTimeoutSec < now - r → h.respTs = some p →
        healthTimeoutSec < now - p →
        healthStale health startedAt now = (true, "response_timeout"))) ∧
    ((healthStale health startedAt now).1 = false →
      (healthStale health startedAt now).2 = "") := by
  by_cases hgr : inGrace startedAt now
  · have hb := (graceActive_iff startedAt now).2 hgr
    have hres : healthStale health startedAt now = (false, "") := by
      simp [healthStale, hb]
    exact ⟨fun _ => hres, fun hn => absurd hgr hn, fun _ => by rw [hres]⟩
  · have hb : graceActive startedAt now = false := by
      cases hm : graceActive startedAt now with
      | true => exact absurd ((graceActive_iff startedAt now).1 hm) hgr
      | false => rfl
    have hred : healthStale health startedAt now = staleCheck health now := by
      simp [healthStale, hb]
    rw [hred]
    refine ⟨fun hg => absurd hg hgr, fun _ => ?_, staleCheck_reason health now⟩
    refine ⟨staleCheck_iff health now, ?_, ?_, ?_, ?_, ?_⟩
    · intro he; rw [he]; exact staleCheck_missing now
    · intro h he hreq; rw [he]; exact staleCheck_no_request h now hreq
    · intro h r he hreq hrt; rw [he]
      exact staleCheck_request_timeout h r now hreq hrt
    · intro h r he hreq hrt hresp; rw [he]
      exact staleCheck_no_response h r now hreq hrt hresp
    · intro h r p he hreq hrt hresp hpt; rw [he]
      exact staleCheck_response_timeout h r p now hreq hrt hresp hpt

/-- Witness for C4: past the grace period, an unreadable record is reported
stale with reason `health_missing`. -/
theorem C4_health_classifier_witness :
    healthStale none (some 100) 1000 = (true, "health_missing") :=
  ((C4_health_classifier none (some 100) 1000).2.1 (by
    rintro ⟨s, hs, _, hlt⟩
    obtain rfl : (100 : Int) = s := by simpa using hs
    simp [healthStartGraceSec] at hlt)).2.1 rfl

/-- C5: when a worker of a kind is already live — the owned handle reports
running or the OS-level scan finds the script — `start` spawns nothing: it
only marks expected-running, records a start time if missing, and ensures
the watchdog, leaving every other field (including the process handle)
unchanged. -/
theorem C5_no_second_start (st : WorkerState) (now : Int)
    (h : st.procRunning = true ∨ st.sysRunning = true) :
    (startWorker st now).2 = false ∧
    (startWorker st now).1 = { st with
        expectedRunning := true
        startedAt := match st.startedAt with
          | none => some now
          | some s => some s
        watchdogStarted := true } := by
  rcases h with h | h <;> simp [startWorker, h]

/-- Witness for C5: a state whose owned handle is live. -/
theorem C5_no_second_start_witness :
    (startWorker ⟨true, false, true, none, false, false, false⟩ 7).2 = false ∧
    (startWorker ⟨true, false, true, none, false, false, false⟩ 7).1
      = { (⟨true, false, true, none, false, false, false⟩ : WorkerState) with
          expectedRunning := true
          startedAt := match (none : Option Int) with
            | none => some 7
            | some s => some s
          watchdogStarted := true } :=
  C5_no_second_start ⟨true, false, true, none, false, false, false⟩ 7
    (Or.inl rfl)

/-- C6: a submission whose type is a recognized batch type but whose
`stats_by_url` normalizes to an empty map is rejected synchronously with
`empty_stats` and the queue is left exactly as it was. -/
theorem C6_empty_stats_rejected (cap : Nat) (q : List Event) (e : Event)
    (ht : recognizedType (pyStripStr e.type) = true)
    (hs : normalizeStatsMap e.stats = []) :
    enqueueParserEvent cap q e = ((false, "empty_stats"), q) := by
  simp [enqueueParserEvent, ht, hs]

/-- Witness for C6: `{type: "accounts_stats_batch", stats_by_url: {}}`. -/
theorem C6_empty_stats_rejected_witness :
    enqueueParserEvent 200 [] ⟨"accounts_stats_batch", RawStats.dict []⟩
      = ((false, "empty_stats"), []) :=
  C6_empty_stats_rejected 200 [] ⟨"accounts_stats_batch", RawStats.dict []⟩
    (by decide) rfl

theorem enqueue_queue_full (cap : Nat) (q : List Event) (e : Event)
    (hcap : 0 < cap) (hfull : cap ≤ q.length)
    (hw : wellFormedEvent e = true) :
    enqueueParserEvent cap q e = ((false, "queue_full"), q) := by
  have hw' : recognizedType (pyStripStr e.type) = true
      ∧ normalizeStatsMap e.stats ≠ [] := by
    simpa [wellFormedEvent] using hw
  rcases hw' with ⟨ht, hs'⟩
  simp [enqueueParserEvent, ht, hs', hcap, hfull]

theorem submitAll_full (cap : Nat) (q : List Event) (es : List Event)
    (hcap : 0 < cap) (hfull : q.length = cap)
    (hwf : ∀ x ∈ es, wellFormedEvent x = true) :
    (∀ r ∈ (submitAll cap q es).1, r = (false, "queue_full")) ∧
    (submitAll cap q es).2 = q := by
  induction es with
  | nil => simp [submitAll]
  | cons e es ih =>
      have h1 : enqueueParserEvent cap q e = ((false, "queue_full"), q) :=
        enqueue_queue_full cap q e hcap (le_of_eq hfull.symm)
          (hwf e (List.mem_cons_self _ _))
      rcases ih (fun x hx => hwf x (List.mem_cons_of_mem _ hx)) with ⟨ha, hb⟩
      refine ⟨?_, ?_⟩
      · intro r hr
        simp only [submitAll, h1] at hr
        rcases List.mem_cons.1 hr with rfl | hmem
        · rfl
        · exact ha r hmem
      · simp only [submitAll, h1]
        exact hb

/-- C7: with `q.length = cap` pending events (`0 < cap`), every further
submission of a well-formed event is rejected with `queue_full` and the
queue is unchanged — for any sequence of such submissions with no
intervening drain — and once the consumer has removed one item, a
well-formed submission is accepted again. -/
theorem C7_queue_full_backpressure (cap : Nat) (q : List Event)
    (es : List Event) (e : Event)
    (hcap : 0 < cap) (hfull : q.length = cap)
    (hwf : ∀ x ∈ es, wellFormedEvent x = true)
    (hwe : wellFormedEvent e = true) :
    (∀ r ∈ (submitAll cap q es).1, r = (false, "queue_full")) ∧
    (submitAll cap q es).2 = q ∧
    enqueueParserEvent cap (q.drop 1) e
      = ((true, "queued"), q.drop 1 ++ [e]) := by
  rcases submitAll_full cap q es hcap hfull hwf with ⟨ha, hb⟩
  refine ⟨ha, hb, ?_⟩
  have hwe' : recognizedType (pyStripStr e.type) = true
      ∧ normalizeStatsMap e.stats ≠ [] := by
    simpa [wellFormedEvent] using hwe
  rcases hwe' with ⟨ht, hs'⟩
  have hlen : (q.drop 1).length = cap - 1 := by
    simp [List.length_drop, hfull]
  have hnotfull : ¬ (0 < cap ∧ cap ≤ (q.drop 1).length) := by
    rintro ⟨_, hle⟩
    rw [hlen] at hle
    omega
  simp only [enqueueParserEvent, ht, hs', hnotfull]
  simp [enqueueParserEvent, ht, hs']

/-- Witness for C7 with capacity 1, one pending event, one rejected
submission and one accepted after a drain. -/
theorem C7_queue_full_backpressure_witness :
    (∀ r ∈ (submitAll 1
        [⟨"accounts_stats_batch", RawStats.dict [("u", SVal.dictV)]⟩]
        [⟨"posts_stats_batch", RawStats.dict [("v", SVal.dictV)]⟩]).1,
      r = (false, "queue_full")) ∧
    (submitAll 1
        [⟨"accounts_stats_batch", RawStats.dict [("u", SVal.dictV)]⟩]
        [⟨"posts_stats_batch", RawStats.dict [("v", SVal.dictV)]⟩]).2
      = [⟨"accounts_stats_batch", RawStats.dict [("u", SVal.dictV)]⟩] ∧
    enqueueParserEvent 1
        ([⟨"accounts_stats_batch", RawStats.dict [("u", SVal.dictV)]⟩].drop 1)
        ⟨"posts_stats_batch", RawStats.dict [("w", SVal.dictV)]⟩
      = ((true, "queued"),
          [⟨"accounts_stats_batch", RawStats.dict [("u", SVal.dictV)]⟩].drop 1
            ++ [⟨"posts_stats_batch", RawStats.dict [("w", SVal.dictV)]⟩]) :=
  C7_queue_full_backpressure 1
    [⟨"accounts_stats_batch", RawStats.dict [("u", SVal.dictV)]⟩]
    [⟨"posts_stats_batch", RawStats.dict [("v", SVal.dictV)]⟩]
    ⟨"posts_stats_batch", RawStats.dict [("w", SVal.dictV)]⟩
    (by decide) rfl
    (by intro x hx; simp at hx; subst hx; decide)
    (by decide)

theorem noLead_lstrip (l : List Char) : noLead (lstrip l) := by
  induction l with
  | nil => intro c hc; simp [lstrip] at hc
  | cons a rest ih =>
      intro c hc
      by_cases h : pyIsSpace a = true
      · rw [lstrip, List.dropWhile_cons, if_pos h] at hc
        exact ih c hc
      · rw [lstrip, List.dropWhile_cons, if_neg h] at hc
        obtain rfl : a = c := by simpa using hc
        exact Bool.eq_false_iff.2 h

theorem noLead_eq_self (l : List Char) (h : noLead l) : lstrip l = l := by
  cases l with
  | nil => rfl
  | cons a rest =>
      rw [lstrip, List.dropWhile_cons, if_neg]
      rw [h a rfl]
      simp

theorem noTrail_rstrip (l : List Char) : noTrail (rstrip l) := by
  intro c hc
  rw [rstrip, List.getLast?_reverse] at hc
  exact noLead_lstrip l.reverse c hc

theorem noTrail_eq_self (l : List Char) (h : noTrail l) : rstrip l = l := by
  have hr : noLead l.reverse := by
    intro c hc
    rw [List.head?_reverse] at hc
    exact h c hc
  rw [rstrip]
  rw [show l.reverse.dropWhile pyIsSpace = lstrip l.reverse from rfl]
  rw [noLead_eq_self l.reverse hr, List.reverse_reverse]

theorem rstrip_prefix_self (l : List Char) : rstrip l <+: l := by
  have h := List.dropWhile_suffix (l := l.reverse) pyIsSpace
  have h2 := List.reverse_prefix.2 h
  rw [List.reverse_reverse] at h2
  exact h2

theorem noLead_rstrip (l : List Char) (h : noLead l) : noLead (rstrip l) := by
  intro c hc
  rcases rstrip_prefix_self l with ⟨t, ht⟩
  apply h c
  rw [← ht, List.head?_append, hc]
  rfl

theorem pyStrip_noLead (l : List Char) : noLead (pyStrip l) :=
  noLead_rstrip (lstrip l) (noLead_lstrip l)

theorem pyStrip_noTrail (l : List Char) : noTrail (pyStrip l) :=
  noTrail_rstrip (lstrip l)

theorem pyStrip_idem (l : List Char) : pyStrip (pyStrip l) = pyStrip l := by
  show rstrip (lstrip (pyStrip l)) = pyStrip l
  rw [noLead_eq_self _ (pyStrip_noLead l), noTrail_eq_self _ (pyStrip_noTrail l)]

theorem noTrail_drop_one (l : List Char) (h : noTrail l) : noTrail (l.drop 1) := by
  intro c hc
  apply h c
  cases l with
  | nil => simp at hc
  | cons a rest =>
      simp only [List.drop_succ_cons, List.drop_zero] at hc
      cases rest with
      | nil => simp at hc
      | cons b rs => rw [List.getLast?_cons_cons]; exact hc

theorem noTrail_append_right (a b : List Char) (hb : noTrail b) (hne : b ≠ []) :
    noTrail (a ++ b) := by
  intro c hc
  cases hg : b.getLast? with
  | none => exact absurd (List.getLast?_eq_none_iff.1 hg) hne
  | some d =>
      rw [List.getLast?_append, hg] at hc
      have hdc : d = c := by simpa [Option.or] using hc
      rw [← hdc]
      exact hb d hg

theorem startsWith_append_of (p a b : List Char)
    (h : startsWithL p a = true) : startsWithL p (a ++ b) = true := by
  rw [startsWithL, List.isPrefixOf_iff_prefix] at h ⊢
  exact h.trans (List.prefix_append a b)

theorem normalizeAccount_of (u : List Char) (hstrip : pyStrip u = u)
    (hne : u ≠ [])
    (hcond : (startsWithL "http://".data u
      || startsWithL "https://".data u) = true) :
    normalizeAccount u = u := by
  simp only [normalizeAccount, hstrip]
  rw [if_neg hne, if_pos hcond]

/-- C10: `normalize_account` returns the empty string exactly when its input
strips to empty; any non-empty result begins with `http://` or `https://`;
and `normalize_account` is idempotent, so entity ids are in canonical URL
form after one application. -/
theorem C10_normalize_account (s : List Char) :
    (normalizeAccount s = [] ↔ pyStrip s = []) ∧
    (normalizeAccount s ≠ [] →
      (startsWithL "http://".data (normalizeAccount s) = true
        ∨ startsWithL "https://".data (normalizeAccount s) = true)) ∧
    normalizeAccount (normalizeAccount s) = normalizeAccount s := by
  by_cases hv : pyStrip s = []
  · have h0 : normalizeAccount s = [] := by simp [normalizeAccount, hv]
    refine ⟨by simp [h0, hv], fun hne => absurd h0 hne, ?_⟩
    rw [h0]
    rfl
  · by_cases hh : (startsWithL "http://".data (pyStrip s)
        || startsWithL "https://".data (pyStrip s)) = true
    · have hres : normalizeAccount s = pyStrip s := by
        simp only [normalizeAccount, if_neg hv, if_pos hh]
      refine ⟨by simp [hres, hv], fun _ => ?_, ?_⟩
      · rw [hres]
        simpa using hh
      · rw [hres]
        exact normalizeAccount_of (pyStrip s) (pyStrip_idem s) hv hh
    · have hres : normalizeAccount s = "https://www.threads.com/@".data ++
          (if startsWithL "@".data (pyStrip s) then (pyStrip s).drop 1
            else pyStrip s) := by
        simp only [normalizeAccount, if_neg hv, if_neg hh]
      have hlit : ("https://www.threads.com/@".data).head? = some 'h' := rfl
      have hne : normalizeAccount s ≠ [] := by
        rw [hres]
        simp
      have hstart : startsWithL "https://".data (normalizeAccount s) = true := by
        rw [hres]
        exact startsWith_append_of _ _ _ rfl
      refine ⟨⟨fun h => absurd h hne, fun h => absurd h hv⟩,
        fun _ => Or.inr hstart, ?_⟩
      have hlead : noLead (normalizeAccount s) := by
        intro c hc
        rw [hres, List.head?_append, hlit] at hc
        obtain rfl : 'h' = c := by simpa [Option.or] using hc
        rfl
      have htrail : noTrail (normalizeAccount s) := by
        rw [hres]
        by_cases h2 : (if startsWithL "@".data (pyStrip s)
            then (pyStrip s).drop 1 else pyStrip s) = []
        · rw [h2]
          intro c hc
          simp only [List.append_nil] at hc
          have : c = '@' := by
            have : ("https://www.threads.com/@".data).getLast? = some '@' := rfl
            rw [this] at hc
            exact (Option.some.injEq _ _ ▸ hc).symm
          rw [this]
          rfl
        · refine noTrail_append_right _ _ ?_ h2
          by_cases ha : startsWithL "@".data (pyStrip s) = true
          · rw [if_pos ha]
            exact noTrail_drop_one _ (pyStrip_noTrail s)
          · rw [if_neg ha]
            exact pyStrip_noTrail s
      have hselfstrip : pyStrip (normalizeAccount s) = normalizeAccount s := by
        show rstrip (lstrip (normalizeAccount s)) = normalizeAccount s
        rw [noLead_eq_self _ hlead, noTrail_eq_self _ htrail]
      have hcond : (startsWithL "http://".data (normalizeAccount s)
          || startsWithL "https://".data (normalizeAccount s)) = true := by
        rw [hstart]
        simp
      exact normalizeAccount_of _ hselfstrip hne hcond

/-- Witness for C10: the second conjunct applied to a concrete handle. -/
theorem C10_normalize_account_witness :
    startsWithL "http://".data (normalizeAccount "@user".data) = true
      ∨ startsWithL "https://".data (normalizeAccount "@user".data) = true :=
  (C10_normalize_account "@user".data).2.1 (by decide)

end NewFlow
